import Mathlib

/-!
Verification of the musical-language CFG parser (`src/muscial_parser.py`).

The repository defines a fixed context-free grammar for a small musical
language, a tokenizer, and a query facade (`parse`, `is_valid`,
`generate_examples`).  The chart-parsing engine and the sentence generator
themselves are supplied by an external library and are not part of the
repository's own sources; they are modelled here from the specification's
description of their observable contract (all derivations are produced,
epsilon rules are handled with a per-position visited set, generation is
depth-bounded).  Everything else (the grammar text, the tokenizer, the
facade with its fail-soft exception handling) is embedded directly from
the source.
-/

namespace MusicalLang

/-- A grammar symbol: a terminal literal or a nonterminal name. -/
inductive Symbol where
  | tm : String → Symbol
  | nt : String → Symbol
deriving DecidableEq, Repr

/-- A parse tree: terminal leaves and labelled internal nodes. -/
inductive Tree where
  | leaf : String → Tree
  | node : String → List Tree → Tree
deriving Repr

/-- The nonterminal names of the grammar `grammar_str` in the source,
in declaration order. -/
def ntNames : List String :=
  ["S", "Composition", "PhraseList", "PhraseList_Prime", "Phrase",
   "NoteSequence", "NoteSequence_Prime", "Note", "Pitch", "Duration",
   "ChordSequence", "ChordSequence_Prime", "Chord", "PitchList",
   "PitchList_Prime"]

/-- The productions of the grammar, transcribed from `grammar_str` in the
source (`MusicalLanguageParser.__init__`).  A trailing empty alternative
in the source text is the epsilon production `[]`.  Names not declared in
the grammar have no productions. -/
def prodsOf : String → List (List Symbol)
  | "S" => [[.nt "Composition"]]
  | "Composition" => [[.nt "PhraseList"]]
  | "PhraseList" => [[.nt "Phrase", .nt "PhraseList_Prime"]]
  | "PhraseList_Prime" => [[.nt "Phrase", .nt "PhraseList_Prime"], []]
  | "Phrase" => [[.nt "NoteSequence"], [.nt "ChordSequence"]]
  | "NoteSequence" => [[.nt "Note", .nt "NoteSequence_Prime"]]
  | "NoteSequence_Prime" => [[.nt "Note", .nt "NoteSequence_Prime"], []]
  | "Note" => [[.nt "Pitch", .nt "Duration"]]
  | "Pitch" =>
      [[.tm "A"], [.tm "B"], [.tm "C"], [.tm "D"], [.tm "E"], [.tm "F"],
       [.tm "G"]]
  | "Duration" =>
      [[.tm "whole"], [.tm "half"], [.tm "quarter"], [.tm "eighth"],
       [.tm "sixteenth"]]
  | "ChordSequence" => [[.nt "Chord", .nt "ChordSequence_Prime"]]
  | "ChordSequence_Prime" => [[.nt "Chord", .nt "ChordSequence_Prime"], []]
  | "Chord" => [[.tm "(", .nt "PitchList", .tm ")", .nt "Duration"]]
  | "PitchList" => [[.nt "Pitch", .nt "PitchList_Prime"]]
  | "PitchList_Prime" => [[.nt "Pitch", .nt "PitchList_Prime"], []]
  | _ => []

/-- The start symbol of the grammar (first left-hand side in `grammar_str`). -/
def startName : String := "S"

/-- The four nonterminals of the grammar that have both an epsilon
production and a production referencing themselves. -/
def epsilonRecursiveNTs : List String :=
  ["PhraseList_Prime", "NoteSequence_Prime", "ChordSequence_Prime",
   "PitchList_Prime"]

/-- The terminal alphabet of the grammar: every terminal literal occurring
on some right-hand side. -/
def terminalAlphabet : List String :=
  ntNames.flatMap (fun A =>
    (prodsOf A).flatMap (fun rhs =>
      rhs.filterMap (fun s => match s with | .tm t => some t | .nt _ => none)))

/-! ## Tokenizer (embedded from `MusicalLanguageParser.tokenize`) -/

/-- The whitespace characters the source's `str.split()` splits on
(ASCII whitespace, as in the Python string method for ASCII input). -/
def isPySpace (c : Char) : Bool :=
  c = ' ' || c = '\t' || c = '\n' || c = '\r' || c = '\x0b' || c = '\x0c'

/-- `text.replace('(', ' ( ').replace(')', ' ) ')` from the source: pad
every parenthesis character with a space on each side. -/
def replaceParens : List Char → List Char
  | [] => []
  | c :: cs =>
      if c = '(' then ' ' :: '(' :: ' ' :: replaceParens cs
      else if c = ')' then ' ' :: ')' :: ' ' :: replaceParens cs
      else c :: replaceParens cs

/-- Whitespace splitting as in Python's `str.split()` with no argument:
maximal runs of non-whitespace characters; empty strings never appear.
`acc` holds the current word, reversed. -/
def splitAux : List Char → List Char → List (List Char)
  | [], acc => if acc = [] then [] else [acc.reverse]
  | c :: cs, acc =>
      if isPySpace c then
        if acc = [] then splitAux cs []
        else acc.reverse :: splitAux cs []
      else splitAux cs (c :: acc)

/-- Python's `str.strip()`: drop leading and trailing whitespace. -/
def pyStrip (cs : List Char) : List Char :=
  ((cs.dropWhile isPySpace).reverse.dropWhile isPySpace).reverse

/-- `tokenize` from the source, on character lists: pad parentheses,
split on whitespace, and keep only tokens whose `strip()` is non-empty
(the comprehension `[token for token in text.split() if token.strip()]`). -/
def tokenize (cs : List Char) : List (List Char) :=
  (splitAux (replaceParens cs) []).filter (fun t => pyStrip t ≠ [])

/-- `tokenize` on strings, producing the token strings fed to the parser. -/
def tokenizeStr (s : String) : List String :=
  (tokenize s.data).map (fun w => String.mk w)

/-! ## Chart parser engine

Modelled from the spec: the Chart Parser Engine and Tree Extractor are
provided by an external parsing library and are not in `src/`; the spec
(sections 4.3, 4.4, 9) requires an exhaustive search of all derivations in
which a nonterminal is expanded at most once per input position along one
derivation path (the per-span visited set that makes epsilon productions
interacting with recursion terminate).  `run fuel visited syms tokens`
returns every way of deriving a prefix of `tokens` from the symbol
sequence `syms`: one tree per symbol, paired with the unconsumed suffix.
`visited` is the set of nonterminals already expanded at the current
position on the current path; it is reset whenever a token is consumed.
`fuel` is a step budget used only to make the recursion structural; the
measure `M` below computes a budget that is always sufficient, and the
stabilization theorem proves the result does not change for any larger
budget. -/
def run : Nat → List String → List Symbol → List String →
    List (List Tree × List String)
  | 0, _, _, _ => []
  | _ + 1, _, [], tokens => [([], tokens)]
  | fuel + 1, _, Symbol.tm a :: rest, tokens =>
      match tokens with
      | [] => []
      | t :: ts =>
          if t = a then
            (run fuel [] rest ts).map (fun pr => (Tree.leaf a :: pr.1, pr.2))
          else []
  | fuel + 1, visited, Symbol.nt A :: rest, tokens =>
      if A ∈ ntNames ∧ A ∉ visited then
        (prodsOf A).flatMap (fun rhs =>
          (run fuel (A :: visited) rhs tokens).flatMap (fun pr =>
            if pr.2.length < tokens.length then
              (run fuel [] rest pr.2).map
                (fun qr => (Tree.node A pr.1 :: qr.1, qr.2))
            else
              (run fuel visited rest pr.2).map
                (fun qr => (Tree.node A pr.1 :: qr.1, qr.2))))
      else []

/-- Number of nonterminals not yet expanded at the current position. -/
def budget (visited : List String) : Nat :=
  (ntNames.filter (fun n => decide (n ∉ visited))).length

/-- A sufficient step budget for `run`: strictly decreases along every
recursive call of `run`. -/
def M (visited : List String) (syms : List Symbol)
    (tokens : List String) : Nat :=
  80 * tokens.length + 5 * budget visited + syms.length + 1

/-- Keep only full-span derivations of a single start symbol. -/
def extractTop (pr : List Tree × List String) : Option Tree :=
  match pr with
  | ([t], []) => some t
  | _ => none

/-- All parse trees for a token sequence: every derivation of the start
symbol that consumes the whole input. -/
def parseTokens (tokens : List String) : List Tree :=
  (run (M [] [Symbol.nt startName] tokens) [] [Symbol.nt startName]
    tokens).filterMap extractTop

/-- Modelled from the spec: the external engine invoked by `parse` raises
an internal failure (section 7, `InternalParserFailure`) when the token
sequence refers to symbols the grammar does not declare — concretely, when
some input token is outside the grammar's terminal alphabet, the engine's
coverage precondition fails before chart construction.  Otherwise it
returns all full-span derivations. -/
def engineParse (tokens : List String) : Except String (List Tree) :=
  if tokens.all (fun t => terminalAlphabet.contains t) then
    Except.ok (parseTokens tokens)
  else
    Except.error "Grammar does not cover some of the input words."

/-- `parse` from the source, on character lists: tokenize, then run the
engine inside the `try`/`except` that degrades any engine failure to the
empty list. -/
def parseText (cs : List Char) : List Tree :=
  match engineParse ((tokenize cs).map (fun w => String.mk w)) with
  | Except.ok trees => trees
  | Except.error _ => []

/-- `MusicalLanguageParser.parse` on strings. -/
def parse (s : String) : List Tree :=
  parseText s.data

/-- `MusicalLanguageParser.is_valid`: `len(trees) > 0`. -/
def is_valid (s : String) : Bool :=
  decide (0 < (parse s).length)

/-! ## Tree measurements, used to state the end-to-end scenarios -/

mutual
/-- Number of nodes labelled `lbl` in a tree. -/
def countLabel (lbl : String) : Tree → Nat
  | .leaf _ => 0
  | .node l cs => (if l = lbl then 1 else 0) + countLabelList lbl cs

/-- Number of nodes labelled `lbl` in a list of trees. -/
def countLabelList (lbl : String) : List Tree → Nat
  | [] => 0
  | t :: ts => countLabel lbl t + countLabelList lbl ts
end

mutual
/-- All subtrees whose root is labelled `lbl`. -/
def subtreesWith (lbl : String) : Tree → List Tree
  | .leaf _ => []
  | .node l cs =>
      (if l = lbl then [Tree.node l cs] else []) ++ subtreesWithList lbl cs

/-- All subtrees with root label `lbl` in a list of trees. -/
def subtreesWithList (lbl : String) : List Tree → List Tree
  | [] => []
  | t :: ts => subtreesWith lbl t ++ subtreesWithList lbl ts
end

/-! ## Example generation

Modelled from the spec: the sentence generator used by
`generate_examples` is supplied by an external library and is not in
`src/`; the spec (section 4.5) describes it as a depth-first expansion of
productions in which each expansion of a nonterminal decreases the
remaining depth by one and a symbol at depth zero produces nothing.
`genF fuel d syms` enumerates the sentences derivable from `syms` with
remaining depth `d`; `fuel` only makes the recursion structural and
`genFuel` always suffices for the modelled depth bound. -/
def genF : Nat → Nat → List Symbol → List (List String)
  | 0, _, _ => []
  | _ + 1, _, [] => [[]]
  | fuel + 1, d, s :: rest =>
      (if d = 0 then []
       else
         match s with
         | Symbol.tm t => [[t]]
         | Symbol.nt A => (prodsOf A).flatMap (fun rhs => genF fuel (d - 1) rhs)
      ).flatMap (fun f1 => (genF fuel d rest).map (fun f2 => f1 ++ f2))

/-- A step budget sufficient for every expansion within depth `d`. -/
def genFuel (d : Nat) : Nat := 6 * (d + 2)

/-- All sentences the depth-bounded generator produces from the start
symbol with depth limit `d`. -/
def generateSentences (d : Nat) : List (List String) :=
  genF (genFuel d) d [Symbol.nt startName]

/-- The hard-coded fallback list from the `except` branch of
`generate_examples` in the source. -/
def fallbackExamples : List String :=
  ["C quarter",
   "A whole B half",
   "C quarter D half E whole",
   "( C E G ) whole",
   "C quarter ( D F A ) half"]

/-- The sentences `generate_examples` accumulates when the generator does
not raise: the source iterates the generator (sliced to `n` items when
`n` is non-zero) joining each sentence with spaces, and breaks as soon as
`n` items have been accumulated, so even for `n = 0` one sentence is
taken when any exists. -/
def generatedExamples (n d : Nat) : List String :=
  ((generateSentences d).take (max n 1)).map (fun ws => " ".intercalate ws)

/-- The result of the `try` block of `generate_examples`: the modelled
depth-bounded generator never raises, so the result is always `ok`. -/
def generateResult (n d : Nat) : Except String (List String) :=
  Except.ok (generatedExamples n d)

/-- `MusicalLanguageParser.generate_examples`: on success the generated
sentences, on an exception the hard-coded fallback list. -/
def generate_examples (n d : Nat) : List String :=
  match generateResult n d with
  | Except.ok ex => ex
  | Except.error _ => fallbackExamples

/-! ## Tokenizer lemmas -/

/-- Every token emitted by `splitAux` is a non-empty run of
non-whitespace characters, provided the accumulator holds only
non-whitespace characters. -/
theorem splitAux_tokens_sound (cs : List Char) :
    ∀ acc, (∀ c ∈ acc, isPySpace c = false) →
      ∀ tok ∈ splitAux cs acc,
        tok ≠ [] ∧ ∀ c ∈ tok, isPySpace c = false := by
  induction cs with
  | nil =>
      intro acc hacc tok htok
      by_cases h : acc = [] <;> simp [splitAux, h] at htok
      subst htok
      refine ⟨by simpa using h, ?_⟩
      intro c hc
      exact hacc c (List.mem_reverse.mp hc)
  | cons c cs ih =>
      intro acc hacc tok htok
      by_cases hsp : isPySpace c
      · by_cases h : acc = []
        · rw [show splitAux (c :: cs) acc = splitAux cs [] by
            simp [splitAux, hsp, h]] at htok
          exact ih [] (by simp) tok htok
        · rw [show splitAux (c :: cs) acc = acc.reverse :: splitAux cs [] by
            simp [splitAux, hsp, h]] at htok
          rcases List.mem_cons.mp htok with htok | htok
          · subst htok
            refine ⟨by simpa using h, ?_⟩
            intro x hx
            exact hacc x (List.mem_reverse.mp hx)
          · exact ih [] (by simp) tok htok
      · rw [show splitAux (c :: cs) acc = splitAux cs (c :: acc) by
          simp [splitAux, hsp]] at htok
        refine ih (c :: acc) ?_ tok htok
        intro x hx
        rcases List.mem_cons.mp hx with hx | hx
        · subst hx
          simpa using hsp
        · exact hacc x hx

/-- `strip()` is the identity on a token without whitespace characters. -/
theorem pyStrip_eq_self (tok : List Char)
    (h : ∀ c ∈ tok, isPySpace c = false) : pyStrip tok = tok := by
  have hdrop : ∀ l : List Char, (∀ c ∈ l, isPySpace c = false) →
      l.dropWhile isPySpace = l := by
    intro l hl
    cases l with
    | nil => rfl
    | cons x xs => simp [List.dropWhile, hl x (by simp)]
  unfold pyStrip
  rw [hdrop tok h, hdrop tok.reverse (by
    intro c hc; exact h c (List.mem_reverse.mp hc)), List.reverse_reverse]

/-- The source's comprehension filter `if token.strip()` keeps every token
`split()` produces: `tokenize` is whitespace splitting of the padded text. -/
theorem tokenize_eq_splitAux (cs : List Char) :
    tokenize cs = splitAux (replaceParens cs) [] := by
  unfold tokenize
  rw [List.filter_eq_self]
  intro tok htok
  obtain ⟨hne, hns⟩ :=
    splitAux_tokens_sound (replaceParens cs) [] (by simp) tok htok
  simp [pyStrip_eq_self tok hns, hne]

/-- Tokens of the padded text containing a parenthesis are exactly the
isolated one-character parenthesis tokens. -/
theorem splitAux_parens_isolated (cs : List Char) :
    ∀ acc, '(' ∉ acc → ')' ∉ acc →
      ∀ tok ∈ splitAux (replaceParens cs) acc,
        tok = ['('] ∨ tok = [')'] ∨ ('(' ∉ tok ∧ ')' ∉ tok) := by
  induction cs with
  | nil =>
      intro acc hl hr tok htok
      by_cases h : acc = [] <;> simp [splitAux, h] at htok
      subst htok
      refine Or.inr (Or.inr ⟨?_, ?_⟩) <;> simpa [List.mem_reverse]
  | cons c cs ih =>
      intro acc hl hr tok htok
      by_cases hopen : c = '('
      · subst hopen
        rw [show replaceParens ('(' :: cs) =
            ' ' :: '(' :: ' ' :: replaceParens cs from by simp [replaceParens]]
            at htok
        by_cases h : acc = []
        · rw [show splitAux (' ' :: '(' :: ' ' :: replaceParens cs) acc =
              ['('] :: splitAux (replaceParens cs) [] by
            simp [splitAux, h, isPySpace]] at htok
          rcases List.mem_cons.mp htok with htok | htok
          · exact Or.inl htok
          · exact ih [] (by simp) (by simp) tok htok
        · rw [show splitAux (' ' :: '(' :: ' ' :: replaceParens cs) acc =
              acc.reverse :: ['('] :: splitAux (replaceParens cs) [] by
            simp [splitAux, h, isPySpace]] at htok
          rcases List.mem_cons.mp htok with htok | htok
          · subst htok
            refine Or.inr (Or.inr ⟨?_, ?_⟩) <;> simpa [List.mem_reverse]
          · rcases List.mem_cons.mp htok with htok | htok
            · exact Or.inl htok
            · exact ih [] (by simp) (by simp) tok htok
      · by_cases hclose : c = ')'
        · subst hclose
          rw [show replaceParens (')' :: cs) =
              ' ' :: ')' :: ' ' :: replaceParens cs from by
            simp [replaceParens]] at htok
          by_cases h : acc = []
          · rw [show splitAux (' ' :: ')' :: ' ' :: replaceParens cs) acc =
                [')'] :: splitAux (replaceParens cs) [] by
              simp [splitAux, h, isPySpace]] at htok
            rcases List.mem_cons.mp htok with htok | htok
            · exact Or.inr (Or.inl htok)
            · exact ih [] (by simp) (by simp) tok htok
          · rw [show splitAux (' ' :: ')' :: ' ' :: replaceParens cs) acc =
                acc.reverse :: [')'] :: splitAux (replaceParens cs) [] by
              simp [splitAux, h, isPySpace]] at htok
            rcases List.mem_cons.mp htok with htok | htok
            · subst htok
              refine Or.inr (Or.inr ⟨?_, ?_⟩) <;> simpa [List.mem_reverse]
            · rcases List.mem_cons.mp htok with htok | htok
              · exact Or.inr (Or.inl htok)
              · exact ih [] (by simp) (by simp) tok htok
        · rw [show replaceParens (c :: cs) = c :: replaceParens cs from by
            simp [replaceParens, hopen, hclose]] at htok
          by_cases hsp : isPySpace c
          · by_cases h : acc = []
            · rw [show splitAux (c :: replaceParens cs) acc =
                  splitAux (replaceParens cs) [] by
                simp [splitAux, hsp, h]] at htok
              exact ih [] (by simp) (by simp) tok htok
            · rw [show splitAux (c :: replaceParens cs) acc =
                  acc.reverse :: splitAux (replaceParens cs) [] by
                simp [splitAux, hsp, h]] at htok
              rcases List.mem_cons.mp htok with htok | htok
              · subst htok
                refine Or.inr (Or.inr ⟨?_, ?_⟩) <;> simpa [List.mem_reverse]
              · exact ih [] (by simp) (by simp) tok htok
          · rw [show splitAux (c :: replaceParens cs) acc =
                splitAux (replaceParens cs) (c :: acc) by
              simp [splitAux, hsp]] at htok
            refine ih (c :: acc) ?_ ?_ tok htok
            · intro hmem
              rcases List.mem_cons.mp hmem with h | h
              · exact hopen h.symm
              · exact hl h
            · intro hmem
              rcases List.mem_cons.mp hmem with h | h
              · exact hclose h.symm
              · exact hr h

/-- Concatenating the tokens of `splitAux` recovers exactly the
non-whitespace characters, in order. -/
theorem splitAux_flatten (cs : List Char) :
    ∀ acc, (splitAux cs acc).flatten =
      acc.reverse ++ cs.filter (fun c => !isPySpace c) := by
  induction cs with
  | nil =>
      intro acc
      by_cases h : acc = [] <;> simp [splitAux, h]
  | cons c cs ih =>
      intro acc
      by_cases hsp : isPySpace c
      · by_cases h : acc = [] <;>
          simp [splitAux, hsp, h, List.filter_cons, ih]
      · simp [splitAux, hsp, List.filter_cons, ih (c :: acc)]

/-- Padding parentheses with spaces neither adds nor removes
non-whitespace characters. -/
theorem replaceParens_filter (cs : List Char) :
    (replaceParens cs).filter (fun c => !isPySpace c) =
      cs.filter (fun c => !isPySpace c) := by
  have hspace : (!isPySpace ' ') = false := by decide
  have hopenNs : (!isPySpace '(') = true := by decide
  have hcloseNs : (!isPySpace ')') = true := by decide
  induction cs with
  | nil => rfl
  | cons c cs ih =>
      by_cases hopen : c = '('
      · subst hopen
        simp [replaceParens, List.filter_cons, hspace, hopenNs, ih]
      · by_cases hclose : c = ')'
        · subst hclose
          simp [replaceParens, List.filter_cons, hspace, hcloseNs, ih]
        · simp [replaceParens, hopen, hclose, List.filter_cons, ih]

/-- On whitespace-only input, `tokenize` returns no tokens. -/
theorem tokenize_all_space (cs : List Char)
    (h : ∀ c ∈ cs, isPySpace c = true) : tokenize cs = [] := by
  have hrp : replaceParens cs = cs := by
    induction cs with
    | nil => rfl
    | cons c cs ih =>
        have hc := h c (by simp)
        have hopen : c ≠ '(' := by rintro rfl; simp [isPySpace] at hc
        have hclose : c ≠ ')' := by rintro rfl; simp [isPySpace] at hc
        simp [replaceParens, hopen, hclose]
        exact ih (fun x hx => h x (by simp [hx]))
  have hsplit : ∀ ds : List Char, (∀ c ∈ ds, isPySpace c = true) →
      splitAux ds [] = [] := by
    intro ds
    induction ds with
    | nil => intro _; rfl
    | cons d ds ih =>
        intro hds
        simp [splitAux, hds d (by simp)]
        exact ih (fun x hx => hds x (by simp [hx]))
  rw [tokenize_eq_splitAux, hrp, hsplit cs h]

/-! ## Engine lemmas: the bounded search is stable beyond the measure -/

/-- Filtering with a pointwise stronger predicate yields a shorter list. -/
theorem filter_length_mono {α : Type} (l : List α) (p q : α → Bool)
    (h : ∀ a ∈ l, p a = true → q a = true) :
    (l.filter p).length ≤ (l.filter q).length := by
  induction l with
  | nil => simp
  | cons x xs ih =>
      have ihx := ih (fun a ha => h a (by simp [ha]))
      by_cases hp : p x = true
      · simp [List.filter_cons, hp, h x (by simp) hp]
        omega
      · simp only [List.filter_cons, Bool.not_eq_true] at hp ⊢
        rw [hp]
        by_cases hq : q x = true <;> simp [hq] <;> omega

/-- Marking one more reachable nonterminal as visited strictly shrinks
the remaining budget. -/
theorem filter_visited_lt (l : List String) (A : String) (v : List String)
    (hA : A ∈ l) (hv : A ∉ v) :
    (l.filter (fun n => decide (n ∉ A :: v))).length <
      (l.filter (fun n => decide (n ∉ v))).length := by
  induction l with
  | nil => cases hA
  | cons x xs ih =>
      have hmono := filter_length_mono xs
        (fun n => decide (n ∉ A :: v)) (fun n => decide (n ∉ v))
        (by
          intro a _ hpa
          simp only [decide_eq_true_eq, List.mem_cons, not_or] at hpa ⊢
          exact hpa.2)
      by_cases hx : x = A
      · subst hx
        rw [List.filter_cons, List.filter_cons,
          if_neg (by simp : ¬((decide (x ∉ x :: v)) = true)),
          if_pos (show (decide (x ∉ v)) = true by simpa using hv)]
        simp only [List.length_cons]
        omega
      · have hA' : A ∈ xs := by
          rcases List.mem_cons.mp hA with h | h
          · exact absurd h.symm hx
          · exact h
        have hxx : (x ∉ A :: v) ↔ (x ∉ v) := by
          simp [List.mem_cons, hx]
        by_cases hq : x ∉ v
        · rw [List.filter_cons, List.filter_cons,
            if_pos (show (decide (x ∉ A :: v)) = true by
              simp only [decide_eq_true_eq, List.mem_cons, not_or]
              exact ⟨hx, hq⟩),
            if_pos (show (decide (x ∉ v)) = true by simpa using hq)]
          simp only [List.length_cons]
          have := ih hA'
          omega
        · rw [List.filter_cons, List.filter_cons,
            if_neg (show ¬((decide (x ∉ A :: v)) = true) by
              simp only [decide_eq_true_eq, List.mem_cons, not_or]
              exact fun hcon => hq hcon.2),
            if_neg (show ¬((decide (x ∉ v)) = true) by simpa using hq)]
          exact ih hA'

/-- The budget never exceeds the number of nonterminals. -/
theorem budget_le (v : List String) : budget v ≤ 15 :=
  List.length_filter_le _ _

/-- Expanding a fresh nonterminal strictly decreases the budget. -/
theorem budget_cons_lt (A : String) (v : List String)
    (hA : A ∈ ntNames) (hv : A ∉ v) :
    budget (A :: v) < budget v :=
  filter_visited_lt ntNames A v hA hv

/-- Every right-hand side of the grammar has at most four symbols. -/
theorem rhs_len_le (A : String) (rhs : List Symbol)
    (h : rhs ∈ prodsOf A) : rhs.length ≤ 4 := by
  unfold prodsOf at h
  split at h <;> simp_all <;> rcases h with rfl | h <;>
    first
      | rfl
      | simp
      | (rcases h with rfl | h <;>
          first
            | rfl
            | simp
            | (rcases h with rfl | h <;>
                first
                  | rfl
                  | simp
                  | (rcases h with rfl | h <;>
                      first
                        | rfl
                        | simp
                        | (rcases h with rfl | h <;>
                            first
                              | rfl
                              | simp
                              | (rcases h with rfl | rfl <;> simp)))))

/-- Every derivation `run` returns consumes a prefix: the unconsumed
suffix is never longer than the input. -/
theorem run_rest_le (fuel : Nat) :
    ∀ (v : List String) (syms : List Symbol) (tokens : List String),
      ∀ pr ∈ run fuel v syms tokens, pr.2.length ≤ tokens.length := by
  induction fuel with
  | zero => intro v syms tokens pr hpr; simp [run] at hpr
  | succ fuel ih =>
      intro v syms tokens pr hpr
      match syms with
      | [] =>
          simp [run] at hpr
          simp [hpr]
      | Symbol.tm a :: rest =>
          match tokens with
          | [] => simp [run] at hpr
          | t :: ts =>
              by_cases ht : t = a
              · simp only [run, if_pos ht, List.mem_map] at hpr
                obtain ⟨qr, hqr, rfl⟩ := hpr
                have := ih [] rest ts qr hqr
                simp only [List.length_cons]
                omega
              · simp [run, ht] at hpr
      | Symbol.nt A :: rest =>
          by_cases hg : A ∈ ntNames ∧ A ∉ v
          · simp only [run, if_pos hg, List.mem_flatMap] at hpr
            obtain ⟨rhs, _, pr1, hpr1, hpr2⟩ := hpr
            have h1 := ih (A :: v) rhs tokens pr1 hpr1
            by_cases hlt : pr1.2.length < tokens.length
            · simp only [if_pos hlt, List.mem_map] at hpr2
              obtain ⟨qr, hqr, rfl⟩ := hpr2
              have := ih [] rest pr1.2 qr hqr
              dsimp only
              omega
            · simp only [if_neg hlt, List.mem_map] at hpr2
              obtain ⟨qr, hqr, rfl⟩ := hpr2
              have := ih v rest pr1.2 qr hqr
              dsimp only
              omega
          · simp [run, hg] at hpr

/-- Stability of the bounded search: any two step budgets at least the
measure `M` produce the same chart.  This is the termination content of
the engine: the search with the per-position visited set needs at most
`M` steps on every finite input, so enlarging the budget never changes
(in particular, never extends) the exploration. -/
theorem run_stable :
    ∀ (m f₁ f₂ : Nat) (v : List String) (syms : List Symbol)
      (tokens : List String),
      M v syms tokens ≤ m → M v syms tokens ≤ f₁ → M v syms tokens ≤ f₂ →
      run f₁ v syms tokens = run f₂ v syms tokens := by
  intro m
  induction m using Nat.strong_induction_on with
  | _ m IH =>
  intro f₁ f₂ v syms tokens hm h1 h2
  have hMpos : 1 ≤ M v syms tokens := by simp only [M]; omega
  obtain ⟨g₁, rfl⟩ : ∃ g, f₁ = g + 1 := ⟨f₁ - 1, by omega⟩
  obtain ⟨g₂, rfl⟩ : ∃ g, f₂ = g + 1 := ⟨f₂ - 1, by omega⟩
  have hb0 := budget_le ([] : List String)
  have hbv := budget_le v
  match syms with
  | [] => simp [run]
  | Symbol.tm a :: rest =>
      match tokens with
      | [] => simp [run]
      | t :: ts =>
          by_cases ht : t = a
          · simp only [run, if_pos ht]
            simp only [M, List.length_cons] at hm h1 h2
            rw [IH (m - 1) (by omega) g₁ g₂ [] rest ts
              (by simp only [M]; omega) (by simp only [M]; omega)
              (by simp only [M]; omega)]
          · simp [run, ht]
  | Symbol.nt A :: rest =>
      by_cases hg : A ∈ ntNames ∧ A ∉ v
      · simp only [run, if_pos hg]
        refine List.flatMap_congr ?_
        intro rhs hrhs
        have hrlen := rhs_len_le A rhs hrhs
        have hbc := budget_cons_lt A v hg.1 hg.2
        simp only [M, List.length_cons] at hm h1 h2
        rw [IH (m - 1) (by omega) g₁ g₂ (A :: v) rhs tokens
          (by simp only [M]; omega) (by simp only [M]; omega)
          (by simp only [M]; omega)]
        refine List.flatMap_congr ?_
        intro pr hpr
        have hble := run_rest_le g₂ (A :: v) rhs tokens pr hpr
        by_cases hlt : pr.2.length < tokens.length
        · simp only [if_pos hlt]
          rw [IH (m - 1) (by omega) g₁ g₂ [] rest pr.2
            (by simp only [M]; omega) (by simp only [M]; omega)
            (by simp only [M]; omega)]
        · simp only [if_neg hlt]
          have heq : pr.2.length = tokens.length := by omega
          rw [IH (m - 1) (by omega) g₁ g₂ v rest pr.2
            (by simp only [M]; omega) (by simp only [M]; omega)
            (by simp only [M]; omega)]
      · simp [run, hg]

/-! ## Claims -/

/-- C1: For every input text `T`, `isValid(T)` returns true if and only if
`parse(T)` returns a non-empty sequence of parse trees. -/
theorem C1_is_valid_iff_parse_nonempty (s : String) :
    is_valid s = true ↔ parse s ≠ [] := by
  simp [is_valid, List.length_pos]

theorem C1_witness :
    is_valid "C quarter" = true ∧ parse "C quarter" ≠ [] :=
  ⟨by decide, (C1_is_valid_iff_parse_nonempty "C quarter").mp (by decide)⟩

/-- C2: For every input text, if the engine signals an internal failure
during recognition or tree extraction, `parse` returns the empty sequence
instead of propagating the exception to the caller (the `try`/`except`
in the source). -/
theorem C2_fail_soft (s e : String)
    (h : engineParse (tokenizeStr s) = Except.error e) : parse s = [] := by
  have h' : engineParse ((tokenize s.data).map (fun w => String.mk w)) =
      Except.error e := h
  unfold parse parseText
  rw [h']

theorem C2_witness :
    engineParse (tokenizeStr "H quarter") =
        Except.error "Grammar does not cover some of the input words." ∧
      parse "H quarter" = [] :=
  ⟨rfl, C2_fail_soft "H quarter"
    "Grammar does not cover some of the input words." rfl⟩

/-- C3, counterexample: for `"C quarter D half"` the claim "parse returns
exactly 1 parse tree (and isValid returns true)" is false — the grammar
is ambiguous here (one phrase of two notes, or two one-note phrases), so
`parse` returns two trees. -/
theorem C3_counterexample :
    ¬ ((parse "C quarter D half").length = 1 ∧
        is_valid "C quarter D half" = true) := by
  decide

/-- C3, amended: for the input text `"C quarter D half"`, `parse` returns
exactly 2 parse trees and `isValid` returns true. -/
theorem C3_two_parse_trees :
    (parse "C quarter D half").length = 2 ∧
      is_valid "C quarter D half" = true :=
  ⟨by decide, by decide⟩

/-- C4: `tokenize` isolates every parenthesis into its own token, splits
the rest on whitespace, and preserves the non-whitespace characters
unchanged and in order (no other normalization, case preserved); in
particular `tokenize("(C E G)whole")` yields
`["(", "C", "E", "G", ")", "whole"]`. -/
theorem C4_tokenize_contract :
    tokenizeStr "(C E G)whole" = ["(", "C", "E", "G", ")", "whole"] ∧
    (∀ cs : List Char, ∀ tok ∈ tokenize cs,
        tok = ['('] ∨ tok = [')'] ∨ ('(' ∉ tok ∧ ')' ∉ tok)) ∧
    (∀ cs : List Char,
        (tokenize cs).flatten = cs.filter (fun c => !isPySpace c)) := by
  refine ⟨by decide, ?_, ?_⟩
  · intro cs tok htok
    rw [tokenize_eq_splitAux] at htok
    exact splitAux_parens_isolated cs [] (by simp) (by simp) tok htok
  · intro cs
    rw [tokenize_eq_splitAux, splitAux_flatten, replaceParens_filter]
    simp

theorem C4_witness :
    (['('] ∈ tokenize "(C".data) ∧
      (['('] = ['('] ∨ ['('] = [')'] ∨ ('(' ∉ ['('] ∧ ')' ∉ ['('])) :=
  ⟨by decide, C4_tokenize_contract.2.1 "(C".data ['('] (by decide)⟩

/-- C5: for the input text `"( C E G ) whole"`, `parse` returns exactly 1
parse tree, and that tree contains exactly one Chord node, which contains
exactly 3 Pitch nodes. -/
theorem C5_single_chord_tree :
    (parse "( C E G ) whole").length = 1 ∧
      ((parse "( C E G ) whole").flatMap (subtreesWith "Chord")).map
          (countLabel "Pitch") = [3] :=
  ⟨by decide, by decide⟩

/-- C6: for the texts `"quarter C"`, `"( C E G"` (unmatched parenthesis)
and `"H quarter"` (H not a Pitch terminal), `parse` returns the empty
sequence — `parse` is a total function here, so no exception reaches the
caller; "no parse" is an empty result, not an error. -/
theorem C6_invalid_inputs :
    parse "quarter C" = [] ∧ parse "( C E G" = [] ∧
      parse "H quarter" = [] :=
  ⟨rfl, rfl, rfl⟩

/-- C7: the grammar contains four nonterminals that each have both an
epsilon production and a self-referencing production, and parsing
nevertheless terminates on every finite token sequence: the engine's
bounded search is already stable at the computed measure — giving the
search any larger step budget produces exactly the same parse forest, so
the search needs only finitely many steps (at most `M`) on every input. -/
theorem C7_parser_terminates :
    (∀ A ∈ epsilonRecursiveNTs,
        [] ∈ prodsOf A ∧
          (prodsOf A).any (fun rhs => decide (Symbol.nt A ∈ rhs)) = true) ∧
    (∀ (tokens : List String) (fuel : Nat),
        M [] [Symbol.nt startName] tokens ≤ fuel →
        (run fuel [] [Symbol.nt startName] tokens).filterMap extractTop =
          parseTokens tokens) := by
  constructor
  · decide
  · intro tokens fuel hfuel
    unfold parseTokens
    rw [run_stable fuel fuel (M [] [Symbol.nt startName] tokens) []
      [Symbol.nt startName] tokens hfuel hfuel le_rfl]

theorem C7_witness :
    ("PitchList_Prime" ∈ epsilonRecursiveNTs ∧
      [] ∈ prodsOf "PitchList_Prime" ∧
        (prodsOf "PitchList_Prime").any
          (fun rhs => decide (Symbol.nt "PitchList_Prime" ∈ rhs)) = true) ∧
    (M [] [Symbol.nt startName] ["C", "quarter"] ≤ 300 ∧
      (run 300 [] [Symbol.nt startName] ["C", "quarter"]).filterMap
          extractTop = parseTokens ["C", "quarter"]) :=
  ⟨⟨by decide, C7_parser_terminates.1 "PitchList_Prime" (by decide)⟩,
   ⟨by decide, C7_parser_terminates.2 ["C", "quarter"] 300 (by decide)⟩⟩

/-- C8, counterexample: with the default arguments (`n = 10`,
`depth = 5`) the depth-bounded generator produces no sentences at all,
yet `generate_examples` returns the empty list, not the built-in
fallback list — the fallback fires only when the generator raises. -/
theorem C8_counterexample :
    generateSentences 5 = [] ∧ generate_examples 10 5 = [] ∧
      generate_examples 10 5 ≠ fallbackExamples :=
  ⟨by decide, by decide, by decide⟩

/-- C8, amended: when depth-bounded generation produces no sentences
(without raising), `generate_examples` returns the empty sequence; the
fixed built-in list is returned only on an exception, which the
depth-bounded generator does not raise merely for producing nothing. -/
theorem C8_no_fallback_on_empty_generation (n d : Nat)
    (h : generateSentences d = []) : generate_examples n d = [] := by
  unfold generate_examples generateResult generatedExamples
  rw [h]
  simp

theorem C8_witness :
    generateSentences 5 = [] ∧ generate_examples 10 5 = [] :=
  ⟨by decide, C8_no_fallback_on_empty_generation 10 5 (by decide)⟩

/-- C9: `parse` is deterministic and repeatable — it is a pure function
of the input text (the chart is rebuilt per invocation and no state
survives a call), so two calls on equal texts return the same tree
sequence in the same order, and equal validity verdicts. -/
theorem C9_parse_deterministic (s₁ s₂ : String) (h : s₁ = s₂) :
    parse s₁ = parse s₂ ∧ is_valid s₁ = is_valid s₂ := by
  subst h
  exact ⟨rfl, rfl⟩

theorem C9_witness :
    ("C quarter" : String) = "C quarter" ∧
      parse "C quarter" = parse "C quarter" ∧
      is_valid "C quarter" = is_valid "C quarter" :=
  ⟨rfl, (C9_parse_deterministic "C quarter" "C quarter" rfl).1,
    (C9_parse_deterministic "C quarter" "C quarter" rfl).2⟩

/-- C10: every token `tokenize` returns is a non-empty string without
whitespace characters, and on input with no non-whitespace characters
`tokenize` returns no tokens, `parse` returns the empty sequence and
`isValid` is false. -/
theorem C10_token_invariants :
    (∀ cs : List Char, ∀ tok ∈ tokenize cs,
        tok ≠ [] ∧ ∀ c ∈ tok, isPySpace c = false) ∧
    (∀ s : String, (∀ c ∈ s.data, isPySpace c = true) →
        tokenizeStr s = [] ∧ parse s = [] ∧ is_valid s = false) := by
  constructor
  · intro cs tok htok
    rw [tokenize_eq_splitAux] at htok
    exact splitAux_tokens_sound (replaceParens cs) [] (by simp) tok htok
  · intro s hs
    have ht : tokenize s.data = [] := tokenize_all_space s.data hs
    have hp : parse s = [] := by
      unfold parse parseText
      rw [ht]
      rfl
    refine ⟨by simp [tokenizeStr, ht], hp, ?_⟩
    simp [is_valid, hp]

theorem C10_witness :
    (['C'] ∈ tokenize "C".data ∧ ['C'] ≠ [] ∧
        ∀ c ∈ ['C'], isPySpace c = false) ∧
    ((∀ c ∈ ("  ".data : List Char), isPySpace c = true) ∧
        tokenizeStr "  " = [] ∧ parse "  " = [] ∧ is_valid "  " = false) :=
  ⟨⟨by decide, C10_token_invariants.1 "C".data ['C'] (by decide)⟩,
   ⟨by decide, C10_token_invariants.2 "  " (by decide)⟩⟩

end MusicalLang
